import Mathlib

/-!
Verification development for the codex-mem worker.

JavaScript strings are modelled as `List Char`; JSON-parsed values are
modelled as Lean structures mirroring the interfaces in the source; machine
integers are `Nat`/`Int` (the quantities involved — line numbers, token
counts, millisecond delays, status codes — stay far below 2^53, where
JavaScript number arithmetic is exact).
-/

set_option maxRecDepth 40000

namespace CodexMem

/-! ## String primitives (JS `String.prototype` operations on `List Char`) -/

/-- Whitespace recognised by JS `trim` (ASCII subset actually occurring in the data). -/
def isJsWhitespace (c : Char) : Bool :=
  c = ' ' || c = '\t' || c = '\n' || c = '\r' || c = '\x0b' || c = '\x0c'

/-- Left part of JS `trim`: drop leading whitespace. -/
def trimLeft (s : List Char) : List Char :=
  s.dropWhile isJsWhitespace

/-- Right part of JS `trim`: drop trailing whitespace. -/
def trimRight (s : List Char) : List Char :=
  (s.reverse.dropWhile isJsWhitespace).reverse

/-- JS `String.prototype.trim`. -/
def trimChars (s : List Char) : List Char :=
  trimRight (trimLeft s)

/-- Index of the first occurrence of `pat` in `s` (JS `String.prototype.indexOf`). -/
def findPat (pat : List Char) : List Char → Option Nat
  | [] => if pat.isPrefixOf ([] : List Char) then some 0 else none
  | c :: rest =>
    if pat.isPrefixOf (c :: rest) then some 0
    else (findPat pat rest).map (· + 1)

/-- Whether `pat` occurs in `s` (JS `String.prototype.includes`). -/
def occursIn (pat s : List Char) : Bool :=
  (findPat pat s).isSome

/-- One global lazy regex replacement pass: repeatedly find the first
`opn`, then the first `cls` after it, delete the span (replacement by the
empty string), and continue scanning after the deleted span — the semantics
of JS `content.replace(/opn[\s\S]*?cls/g, '')`.  `fuel` bounds recursion;
each successful match consumes at least one character, so
`fuel = s.length` always suffices. -/
def removeBlocksFuel (opn cls : List Char) : Nat → List Char → List Char
  | 0, s => s
  | fuel + 1, s =>
    match findPat opn s with
    | none => s
    | some i =>
      let afterOpen := s.drop (i + opn.length)
      match findPat cls afterOpen with
      | none => s
      | some j => s.take i ++ removeBlocksFuel opn cls fuel (afterOpen.drop (j + cls.length))

/-- Global replacement of every `opn … cls` block by the empty string. -/
def removeBlocks (opn cls s : List Char) : List Char :=
  removeBlocksFuel opn cls s.length s

/-! ## src/utils/tag-stripping.ts -/

def canonicalContextOpen : List Char := "<codex-mem-context>".toList
def canonicalContextClose : List Char := "</codex-mem-context>".toList
def legacyContextOpen : List Char := "<claude-mem-context>".toList
def legacyContextClose : List Char := "</claude-mem-context>".toList
def privateOpen : List Char := "<private>".toList
def privateClose : List Char := "</private>".toList

/-- `stripTagsInternal` from src/utils/tag-stripping.ts: replace
`<codex-mem-context>…</codex-mem-context>`, then
`<claude-mem-context>…</claude-mem-context>`, then `<private>…</private>`
(each a global lazy regex), then `.trim()`.  The tag-count check in the
source only logs a warning and never changes the result, so it does not
appear in the model. -/
def stripTagsInternal (s : List Char) : List Char :=
  trimChars
    (removeBlocks privateOpen privateClose
      (removeBlocks legacyContextOpen legacyContextClose
        (removeBlocks canonicalContextOpen canonicalContextClose s)))

/-- `stripMemoryTagsFromJson` from src/utils/tag-stripping.ts. -/
def stripMemoryTagsFromJson (content : List Char) : List Char :=
  stripTagsInternal content

/-- `stripMemoryTagsFromPrompt` from src/utils/tag-stripping.ts. -/
def stripMemoryTagsFromPrompt (content : List Char) : List Char :=
  stripTagsInternal content

/-! ## Lemmas about the string primitives -/

theorem dropWhile_dropWhile (p : Char → Bool) (l : List Char) :
    (l.dropWhile p).dropWhile p = l.dropWhile p := by
  induction l with
  | nil => rfl
  | cons a t ih =>
    by_cases h : p a
    · simpa [List.dropWhile, h] using ih
    · simp [List.dropWhile, h]

theorem trimLeft_trimLeft (s : List Char) : trimLeft (trimLeft s) = trimLeft s :=
  dropWhile_dropWhile _ s

theorem trimRight_trimRight (s : List Char) : trimRight (trimRight s) = trimRight s := by
  simp [trimRight, List.reverse_reverse, dropWhile_dropWhile]

theorem trimLeft_trimRight (s : List Char) : trimLeft (trimRight s) = trimRight (trimLeft s) := by
  rcases h : trimLeft s with _ | ⟨a, t⟩
  · have hall : ∀ c ∈ s, isJsWhitespace c := by
      simpa [trimLeft, List.dropWhile_eq_nil_iff] using h
    have hrev : s.reverse.dropWhile isJsWhitespace = [] := by
      rw [List.dropWhile_eq_nil_iff]
      intro c hc
      exact hall c (List.mem_reverse.mp hc)
    have hR : trimRight s = [] := by simp [trimRight, hrev]
    simp only [hR, h]
    rfl
  · have ha : isJsWhitespace a = false := by
      have := List.head_dropWhile_not isJsWhitespace (l := s)
      rw [trimLeft] at h
      simp only [h] at this
      simpa using this (by simp)
    have hsplit : s.takeWhile isJsWhitespace ++ (a :: t) = s := by
      conv_rhs => rw [← List.takeWhile_append_dropWhile (p := isJsWhitespace) (l := s)]
      rw [← h, trimLeft]
    have htw : ∀ c ∈ s.takeWhile isJsWhitespace, isJsWhitespace c := by
      intro c hc
      exact List.mem_takeWhile_imp hc
    -- dropping whitespace from the reversed `a :: t` keeps the trailing `a`
    have hBody : ∀ u : List Char,
        (u ++ [a]).dropWhile isJsWhitespace =
          (if ((u.dropWhile isJsWhitespace).isEmpty) then [] else u.dropWhile isJsWhitespace) ++ [a] := by
      intro u
      rw [List.dropWhile_append]
      by_cases he : (u.dropWhile isJsWhitespace).isEmpty
      · simp [he, List.dropWhile, ha]
      · simp [he]
    have hB := hBody (a :: t).reverse.tail
    have hrevat : (a :: t).reverse = t.reverse ++ [a] := by simp
    -- compute trimRight (a :: t): it is nonempty and ends with trailing content kept
    have hdropB : ((a :: t).reverse).dropWhile isJsWhitespace =
        (if ((t.reverse.dropWhile isJsWhitespace).isEmpty) then [] else t.reverse.dropWhile isJsWhitespace) ++ [a] := by
      rw [hrevat]
      exact hBody t.reverse
    -- trimRight (a :: t) = a :: (reverse of the kept part)
    have hTRat : trimRight (a :: t) =
        a :: (if ((t.reverse.dropWhile isJsWhitespace).isEmpty) then [] else t.reverse.dropWhile isJsWhitespace).reverse := by
      rw [trimRight, hdropB]
      simp
    -- left side: trimRight s keeps the leading whitespace block of s
    have hsrev : s.reverse = (a :: t).reverse ++ (s.takeWhile isJsWhitespace).reverse := by
      conv_lhs => rw [← hsplit]
      simp
    have hne : ¬ (((a :: t).reverse).dropWhile isJsWhitespace).isEmpty := by
      rw [hdropB]
      cases hcase : (t.reverse.dropWhile isJsWhitespace).isEmpty <;> simp [hcase]
    have hdropS : s.reverse.dropWhile isJsWhitespace =
        ((a :: t).reverse).dropWhile isJsWhitespace ++ (s.takeWhile isJsWhitespace).reverse := by
      rw [hsrev, List.dropWhile_append, if_neg hne]
    have hTRs : trimRight s = s.takeWhile isJsWhitespace ++ trimRight (a :: t) := by
      rw [trimRight, hdropS, List.reverse_append, List.reverse_reverse]
      rfl
    -- now take trimLeft of both sides
    have htwnil : (s.takeWhile isJsWhitespace).dropWhile isJsWhitespace = [] := by
      rw [List.dropWhile_eq_nil_iff]
      exact htw
    simp only [hTRs, h]
    simp only [trimLeft]
    rw [List.dropWhile_append, htwnil]
    simp only [List.isEmpty_nil, if_true]
    rw [hTRat]
    simp [List.dropWhile, ha]

theorem trimChars_trimChars (s : List Char) : trimChars (trimChars s) = trimChars s := by
  rw [trimChars, trimChars, trimLeft_trimRight, trimRight_trimRight, trimLeft_trimLeft]

theorem removeBlocksFuel_of_no_occurrence (opn cls : List Char) (fuel : Nat) (s : List Char)
    (h : occursIn opn s = false) : removeBlocksFuel opn cls fuel s = s := by
  cases fuel with
  | zero => rfl
  | succ n =>
    have hnone : findPat opn s = none := by
      rcases hf : findPat opn s with _ | i
      · rfl
      · exfalso
        rw [occursIn, hf] at h
        simp at h
    simp [removeBlocksFuel, hnone]

theorem removeBlocks_of_no_occurrence (opn cls s : List Char)
    (h : occursIn opn s = false) : removeBlocks opn cls s = s :=
  removeBlocksFuel_of_no_occurrence opn cls s.length s h

/-! ## Claim C7 -/

/-- Claim C7 as stated is false: stripping is not idempotent.  Removing a
`<private>…</private>` block can splice the surrounding text into a new
`<private>…</private>` block, which only a second pass removes.  Concretely,
one pass over `<priv<private>a</private>ate>h</private>` yields
`<private>h</private>`, and a second pass yields the empty string. -/
theorem stripTags_not_idempotent_counterexample :
    stripMemoryTagsFromPrompt
        (stripMemoryTagsFromPrompt ("<priv<private>a</private>ate>h</private>").toList) ≠
      stripMemoryTagsFromPrompt ("<priv<private>a</private>ate>h</private>").toList := by
  decide

/-- Claim C7, amended: stripping is idempotent on every input whose stripped
form contains no occurrence of the three opening tags (in particular on all
inputs where removal does not splice a new tag into existence); in general a
second pass can remove more. -/
theorem stripTags_idempotent_of_no_residual_tags (s : List Char)
    (h1 : occursIn canonicalContextOpen (stripMemoryTagsFromPrompt s) = false)
    (h2 : occursIn legacyContextOpen (stripMemoryTagsFromPrompt s) = false)
    (h3 : occursIn privateOpen (stripMemoryTagsFromPrompt s) = false) :
    stripMemoryTagsFromPrompt (stripMemoryTagsFromPrompt s) = stripMemoryTagsFromPrompt s := by
  have hstrip : ∀ t : List Char, stripMemoryTagsFromPrompt t = stripTagsInternal t := fun _ => rfl
  rw [hstrip, stripTagsInternal,
    removeBlocks_of_no_occurrence _ _ _ h1,
    removeBlocks_of_no_occurrence _ _ _ h2,
    removeBlocks_of_no_occurrence _ _ _ h3]
  have : ∃ u, stripMemoryTagsFromPrompt s = trimChars u := ⟨_, rfl⟩
  rcases this with ⟨u, hu⟩
  rw [hu, trimChars_trimChars]

/-- Witness for the amended C7 theorem at a concrete input with one
`<private>` block between surrounding text. -/
theorem stripTags_idempotent_witness :
    stripMemoryTagsFromPrompt
        (stripMemoryTagsFromPrompt ("a <private>x</private> b").toList) =
      stripMemoryTagsFromPrompt ("a <private>x</private> b").toList :=
  stripTags_idempotent_of_no_residual_tags _ (by decide) (by decide) (by decide)

/-! ## Occurrence lemmas -/

theorem occursIn_of_starts_with (pat s : List Char) (h : pat.isPrefixOf s = true) :
    occursIn pat s = true := by
  cases s with
  | nil => simp [occursIn, findPat, h]
  | cons c rest => simp [occursIn, findPat, h]

theorem occursIn_cons (pat : List Char) (c : Char) (s : List Char)
    (h : occursIn pat s = true) : occursIn pat (c :: s) = true := by
  by_cases hp : pat.isPrefixOf (c :: s) = true
  · simp [occursIn, findPat, hp]
  · rcases hf : findPat pat s with _ | i
    · rw [occursIn, hf] at h
      simp at h
    · simp [occursIn, findPat, hp, hf]

/-- A pattern occurs in any string of the shape `x ++ pat ++ y`. -/
theorem occursIn_sandwich (pat x y : List Char) :
    occursIn pat (x ++ (pat ++ y)) = true := by
  induction x with
  | nil =>
    exact occursIn_of_starts_with pat (pat ++ y)
      ((List.isPrefixOf_iff_prefix).mpr (List.prefix_append pat y))
  | cons c rest ih => exact occursIn_cons pat c _ ih

/-! ## CodexAgent (CLI-subprocess provider): fallback summary synthesis -/

/-- One character of `escapeXml`.  The source applies five sequential
`replaceAll` passes (`&`, `<`, `>`, `"`, `'`); no replacement output
contains a character replaced by a later pass, so the composition equals a
single character-by-character expansion. -/
def escapeXmlChar (c : Char) : List Char :=
  if c = '&' then "&amp;".toList
  else if c = '<' then "&lt;".toList
  else if c = '>' then "&gt;".toList
  else if c = '"' then "&quot;".toList
  else if c = '\'' then "&apos;".toList
  else [c]

/-- `escapeXml` from CodexAgent.ts. -/
def escapeXml (s : List Char) : List Char :=
  s.flatMap escapeXmlChar

def summaryTagOpen : List Char := "<summary>".toList
def summaryTagClose : List Char := "</summary>".toList

/-- The XML template returned by the fallback branch of
`CodexAgent.normalizeSummaryResponse`, as a function of the already-escaped
request and summary-source strings. -/
def fallbackSummaryTemplate (request source : List Char) : List Char :=
  "<summary>\n  <request>".toList ++ request ++
    "</request>\n  <investigated>".toList ++ source ++
    "</investigated>\n  <learned>".toList ++ source ++
    "</learned>\n  <completed>".toList ++ source ++
    "</completed>\n  <next_steps>Continue from the latest assistant output.</next_steps>\n  <notes>Fallback summary generated from unstructured Codex output.</notes>\n</summary>".toList

/-- The summary-source selection of `normalizeSummaryResponse`:
`(lastAssistantMessage.trim() || trimmedResponse || userPrompt.trim() ||
'No summary content available.').trim()` — JS `||` treats the empty string
as falsy. -/
def summarySourceOf (trimmedResponse lastAssistantMessage userPrompt : List Char) : List Char :=
  trimChars
    (if trimChars lastAssistantMessage ≠ [] then trimChars lastAssistantMessage
     else if trimmedResponse ≠ [] then trimmedResponse
     else if trimChars userPrompt ≠ [] then trimChars userPrompt
     else "No summary content available.".toList)

/-- `CodexAgent.normalizeSummaryResponse` from CodexAgent.ts. -/
def normalizeSummaryResponse (rawResponse lastAssistantMessage userPrompt : List Char) :
    List Char :=
  let trimmedResponse := trimChars rawResponse
  if occursIn summaryTagOpen trimmedResponse && occursIn summaryTagClose trimmedResponse then
    trimmedResponse
  else
    fallbackSummaryTemplate
      (escapeXml (if trimChars userPrompt ≠ [] then trimChars userPrompt
                  else "Session summary".toList))
      (escapeXml (summarySourceOf trimmedResponse lastAssistantMessage userPrompt))

/-! ## Claim C6 -/

/-- Claim C6 as stated is false: when the provider response has no
`<summary>` block and the turn's `last_assistant_message` is non-empty, the
fallback summary's content fields are populated from the last assistant
message, not from the raw response text.  At the concrete inputs of the
repository's own fallback test (raw response `This is a plain text summary
from Codex without XML tags.`, last assistant message `assistant output
from codex transcript`), the synthesised `<learned>` field does not carry
the raw response. -/
theorem normalizeSummary_fields_not_from_raw_response :
    occursIn
        ("<learned>".toList ++
          escapeXml (trimChars ("This is a plain text summary from Codex without XML tags.").toList) ++
          "</learned>".toList)
        (normalizeSummaryResponse
          ("This is a plain text summary from Codex without XML tags.").toList
          ("assistant output from codex transcript").toList
          ("test prompt").toList) = false := by
  decide

/-- Claim C6, amended: whenever a summarize turn's provider response
contains no `<summary>…</summary>` block, the agent synthesises a fallback
summary wrapped in `<summary>` tags whose `request` field is the XML-escaped
trimmed initial user prompt (`Session summary` when that is empty) and whose
content fields (`investigated`/`learned`/`completed`) carry the XML-escaped
first non-empty value among the trimmed last assistant message, the trimmed
raw response, and the trimmed user prompt, so the turn still produces a
usable summary instead of failing. -/
theorem normalizeSummary_fallback_structure (rawResponse lastAssistantMessage userPrompt : List Char)
    (h : (occursIn summaryTagOpen (trimChars rawResponse) &&
          occursIn summaryTagClose (trimChars rawResponse)) = false) :
    occursIn summaryTagOpen
        (normalizeSummaryResponse rawResponse lastAssistantMessage userPrompt) = true ∧
    occursIn summaryTagClose
        (normalizeSummaryResponse rawResponse lastAssistantMessage userPrompt) = true ∧
    occursIn
        ("<request>".toList ++
          escapeXml (if trimChars userPrompt ≠ [] then trimChars userPrompt
                     else "Session summary".toList) ++
          "</request>".toList)
        (normalizeSummaryResponse rawResponse lastAssistantMessage userPrompt) = true ∧
    occursIn
        ("<learned>".toList ++
          escapeXml (summarySourceOf (trimChars rawResponse) lastAssistantMessage userPrompt) ++
          "</learned>".toList)
        (normalizeSummaryResponse rawResponse lastAssistantMessage userPrompt) = true := by
  have hout : normalizeSummaryResponse rawResponse lastAssistantMessage userPrompt =
      fallbackSummaryTemplate
        (escapeXml (if trimChars userPrompt ≠ [] then trimChars userPrompt
                    else "Session summary".toList))
        (escapeXml (summarySourceOf (trimChars rawResponse) lastAssistantMessage userPrompt)) := by
    rw [normalizeSummaryResponse]
    simp only [h]
    rfl
  rw [hout]
  set req := escapeXml (if trimChars userPrompt ≠ [] then trimChars userPrompt
                        else "Session summary".toList) with hreq
  set src := escapeXml (summarySourceOf (trimChars rawResponse) lastAssistantMessage userPrompt)
    with hsrc
  refine ⟨?_, ?_, ?_, ?_⟩
  · have hsplit : fallbackSummaryTemplate req src =
        [] ++ (summaryTagOpen ++
          ("\n  <request>".toList ++ req ++ "</request>\n  <investigated>".toList ++ src ++
            "</investigated>\n  <learned>".toList ++ src ++ "</learned>\n  <completed>".toList ++
            src ++
            "</completed>\n  <next_steps>Continue from the latest assistant output.</next_steps>\n  <notes>Fallback summary generated from unstructured Codex output.</notes>\n</summary>".toList)) := by
      rw [fallbackSummaryTemplate,
        (by decide : ("<summary>\n  <request>").toList =
          summaryTagOpen ++ ("\n  <request>").toList)]
      simp only [List.append_assoc, List.nil_append]
    rw [hsplit]
    exact occursIn_sandwich _ _ _
  · have hsplit : fallbackSummaryTemplate req src =
        ("<summary>\n  <request>".toList ++ req ++ "</request>\n  <investigated>".toList ++ src ++
          "</investigated>\n  <learned>".toList ++ src ++ "</learned>\n  <completed>".toList ++
          src ++ "</completed>\n  <next_steps>Continue from the latest assistant output.</next_steps>\n  <notes>Fallback summary generated from unstructured Codex output.</notes>\n".toList) ++
          (summaryTagClose ++ []) := by
      rw [fallbackSummaryTemplate,
        (by decide : ("</completed>\n  <next_steps>Continue from the latest assistant output.</next_steps>\n  <notes>Fallback summary generated from unstructured Codex output.</notes>\n</summary>").toList =
          ("</completed>\n  <next_steps>Continue from the latest assistant output.</next_steps>\n  <notes>Fallback summary generated from unstructured Codex output.</notes>\n").toList ++
            summaryTagClose)]
      simp only [List.append_assoc, List.append_nil, List.nil_append]
    rw [hsplit]
    exact occursIn_sandwich _ _ _
  · have hsplit : fallbackSummaryTemplate req src =
        "<summary>\n  ".toList ++
          (("<request>".toList ++ req ++ "</request>".toList) ++
            ("\n  <investigated>".toList ++ src ++ "</investigated>\n  <learned>".toList ++ src ++
              "</learned>\n  <completed>".toList ++ src ++
              "</completed>\n  <next_steps>Continue from the latest assistant output.</next_steps>\n  <notes>Fallback summary generated from unstructured Codex output.</notes>\n</summary>".toList)) := by
      rw [fallbackSummaryTemplate,
        (by decide : ("<summary>\n  <request>").toList =
          ("<summary>\n  ").toList ++ ("<request>").toList),
        (by decide : ("</request>\n  <investigated>").toList =
          ("</request>").toList ++ ("\n  <investigated>").toList)]
      simp only [List.append_assoc]
    rw [hsplit]
    exact occursIn_sandwich _ _ _
  · have hsplit : fallbackSummaryTemplate req src =
        ("<summary>\n  <request>".toList ++ req ++ "</request>\n  <investigated>".toList ++ src ++
          "</investigated>\n  ".toList) ++
          (("<learned>".toList ++ src ++ "</learned>".toList) ++
            ("\n  <completed>".toList ++ src ++
              "</completed>\n  <next_steps>Continue from the latest assistant output.</next_steps>\n  <notes>Fallback summary generated from unstructured Codex output.</notes>\n</summary>".toList)) := by
      rw [fallbackSummaryTemplate,
        (by decide : ("</investigated>\n  <learned>").toList =
          ("</investigated>\n  ").toList ++ ("<learned>").toList),
        (by decide : ("</learned>\n  <completed>").toList =
          ("</learned>").toList ++ ("\n  <completed>").toList)]
      simp only [List.append_assoc]
    rw [hsplit]
    exact occursIn_sandwich _ _ _

/-- Witness for the amended C6 theorem at the repository's fallback-test
inputs. -/
theorem normalizeSummary_fallback_structure_witness :
    (occursIn summaryTagOpen
        (trimChars ("This is a plain text summary from Codex without XML tags.").toList) &&
      occursIn summaryTagClose
        (trimChars ("This is a plain text summary from Codex without XML tags.").toList)) = false ∧
    occursIn
        ("<learned>".toList ++
          escapeXml (summarySourceOf
            (trimChars ("This is a plain text summary from Codex without XML tags.").toList)
            ("assistant output from codex transcript").toList
            ("test prompt").toList) ++
          "</learned>".toList)
        (normalizeSummaryResponse
          ("This is a plain text summary from Codex without XML tags.").toList
          ("assistant output from codex transcript").toList
          ("test prompt").toList) = true :=
  ⟨by decide,
    (normalizeSummary_fallback_structure
      ("This is a plain text summary from Codex without XML tags.").toList
      ("assistant output from codex transcript").toList
      ("test prompt").toList (by decide)).2.2.2⟩

/-! ## Token accounting (CodexAgent / OllamaAgent / GeminiAgent)

`Math.floor(t * 0.7)` and `Math.floor(t * 0.3)` are modelled by the exact
rational floors `7 * t / 10` and `3 * t / 10` (natural division). -/

/-- `CodexAgent.applyTokenEstimate`: when a positive provider total is
reported, add `Math.floor(t * 0.7)` to the cumulative input counter and
`Math.max(0, t - Math.floor(t * 0.7))` to the cumulative output counter;
a missing or non-positive total leaves both counters unchanged. -/
def applyTokenEstimate (cumulativeInput cumulativeOutput totalTokensUsed : Nat) : Nat × Nat :=
  if totalTokensUsed = 0 then (cumulativeInput, cumulativeOutput)
  else
    (cumulativeInput + 7 * totalTokensUsed / 10,
      cumulativeOutput + (totalTokensUsed - 7 * totalTokensUsed / 10))

/-- The token split applied inline by `OllamaAgent.startSession`:
`cumulativeInputTokens += Math.floor(tokensUsed * 0.7)` and
`cumulativeOutputTokens += Math.floor(tokensUsed * 0.3)`. -/
def ollamaTokenSplit (cumulativeInput cumulativeOutput tokensUsed : Nat) : Nat × Nat :=
  (cumulativeInput + 7 * tokensUsed / 10, cumulativeOutput + 3 * tokensUsed / 10)

/-- The token split applied inline by `GeminiAgent.startSession` — textually
identical to the Ollama one. -/
def geminiTokenSplit (cumulativeInput cumulativeOutput tokensUsed : Nat) : Nat × Nat :=
  (cumulativeInput + 7 * tokensUsed / 10, cumulativeOutput + 3 * tokensUsed / 10)

/-- `floor(0.7 t) + floor(0.3 t)` falls short of `t` by one except at
multiples of 10. -/
theorem floor_split_key (t : Nat) :
    7 * t / 10 + 3 * t / 10 + (if t % 10 = 0 then 0 else 1) = t := by
  have hqr : 10 * (t / 10) + t % 10 = t := Nat.div_add_mod t 10
  have hr : t % 10 < 10 := Nat.mod_lt _ (by norm_num)
  have h7 : 7 * t / 10 = 7 * (t % 10) / 10 + 7 * (t / 10) := by
    have he : 7 * t = 7 * (t % 10) + 10 * (7 * (t / 10)) := by omega
    rw [he, Nat.add_mul_div_left _ _ (by norm_num : 0 < 10)]
  have h3 : 3 * t / 10 = 3 * (t % 10) / 10 + 3 * (t / 10) := by
    have he : 3 * t = 3 * (t % 10) + 10 * (3 * (t / 10)) := by omega
    rw [he, Nat.add_mul_div_left _ _ (by norm_num : 0 < 10)]
  have key : ∀ r, r < 10 → 7 * r / 10 + 3 * r / 10 + (if r % 10 = 0 then 0 else 1) = r := by
    decide
  have hk := key (t % 10) hr
  have hmm : t % 10 % 10 = t % 10 := by omega
  rw [hmm] at hk
  rw [h7, h3]
  by_cases h10 : t % 10 = 0
  · rw [if_pos h10] at hk ⊢
    omega
  · rw [if_neg h10] at hk ⊢
    omega

/-! ## Claim C5 -/

/-- Claim C5 as stated is false for the Ollama and Gemini agents: at a
provider-reported total of `t = 9` tokens the input counter gains
`floor(0.7 * 9) = 6` but the output counter gains `floor(0.3 * 9) = 2`, not
the remaining `3`, so the two increments sum to `8`, not `t`.  (The Codex
CLI agent does add the exact remainder.) -/
theorem tokenSplit_sum_counterexample :
    (ollamaTokenSplit 0 0 9).1 + (ollamaTokenSplit 0 0 9).2 ≠ 9 ∧
    (geminiTokenSplit 0 0 9).1 + (geminiTokenSplit 0 0 9).2 ≠ 9 := by
  decide

/-- Claim C5, amended: for every turn with a provider-reported total
`t > 0`, the Codex CLI agent adds `floor(0.7 * t)` to the input counter and
the remaining `t - floor(0.7 * t)` to the output counter, the two summing to
`t`; the Ollama and Gemini agents add `floor(0.7 * t)` and `floor(0.3 * t)`,
which sum to `t` exactly when `t` is a multiple of 10 and to `t - 1`
otherwise. -/
theorem tokenSplit_across_agents (cin cout t : Nat) (h : 0 < t) :
    applyTokenEstimate cin cout t =
      (cin + 7 * t / 10, cout + (t - 7 * t / 10)) ∧
    (applyTokenEstimate cin cout t).1 + (applyTokenEstimate cin cout t).2 = cin + cout + t ∧
    (ollamaTokenSplit cin cout t).1 + (ollamaTokenSplit cin cout t).2 +
        (if t % 10 = 0 then 0 else 1) = cin + cout + t ∧
    geminiTokenSplit cin cout t = ollamaTokenSplit cin cout t := by
  have ht : t ≠ 0 := Nat.pos_iff_ne_zero.mp h
  have hsplit := floor_split_key t
  refine ⟨by simp [applyTokenEstimate, ht], ?_, ?_, rfl⟩
  · simp only [applyTokenEstimate, ht, if_false]
    have hle : 7 * t / 10 ≤ t := Nat.div_le_of_le_mul (by omega)
    omega
  · simp only [ollamaTokenSplit]
    omega

/-- Witness for the amended C5 theorem at `t = 9`. -/
theorem tokenSplit_across_agents_witness :
    0 < 9 ∧
    ((applyTokenEstimate 100 50 9).1 + (applyTokenEstimate 100 50 9).2 = 100 + 50 + 9 ∧
      (ollamaTokenSplit 100 50 9).1 + (ollamaTokenSplit 100 50 9).2 +
          (if 9 % 10 = 0 then 0 else 1) = 100 + 50 + 9) :=
  ⟨by decide,
    ⟨(tokenSplit_across_agents 100 50 9 (by decide)).2.1,
      (tokenSplit_across_agents 100 50 9 (by decide)).2.2.1⟩⟩

/-! ## GeminiAgent rate limiting -/

/-- The Gemini models known to GeminiAgent.ts. -/
inductive GeminiModel
  | flash25lite
  | flash25
  | pro25
  | flash20
  | flash20lite
  | flash3
  deriving DecidableEq, Repr

/-- `GEMINI_RPM_LIMITS` from GeminiAgent.ts (free-tier requests per minute). -/
def GEMINI_RPM_LIMITS : GeminiModel → Nat
  | .flash25lite => 10
  | .flash25 => 10
  | .pro25 => 5
  | .flash20 => 15
  | .flash20lite => 30
  | .flash3 => 5

/-- `Math.ceil(60000 / rpm) + 100` — the minimum spacing enforced before a
request on the given model. -/
def minimumDelayMs (model : GeminiModel) : Nat :=
  (60000 + GEMINI_RPM_LIMITS model - 1) / GEMINI_RPM_LIMITS model + 100

/-- `enforceRateLimitForModel` from GeminiAgent.ts as a state transformer.
The mutable state is the single module-level variable `lastRequestTime`
(shared by every model); `now` is `Date.now()` at entry.  Returns the
milliseconds waited and the updated `lastRequestTime` (which the source sets
to `Date.now()` after the optional sleep, i.e. `now + wait`).  When rate
limiting is disabled the source returns early without touching
`lastRequestTime`. -/
def enforceRateLimitForModel (model : GeminiModel) (rateLimitingEnabled : Bool)
    (lastRequestTime now : Nat) : Nat × Nat :=
  if !rateLimitingEnabled then (0, lastRequestTime)
  else
    let d := minimumDelayMs model
    if now - lastRequestTime < d then
      (d - (now - lastRequestTime), now + (d - (now - lastRequestTime)))
    else (0, now)

/-- Run the source rate limiter over a sequence of `(model, arrival time)`
requests (rate limiting enabled), threading the single global
`lastRequestTime` starting from `last0`; returns the waits. -/
def runRateLimiter (last0 : Nat) : List (GeminiModel × Nat) → List Nat
  | [] => []
  | (model, now) :: rest =>
    let step := enforceRateLimitForModel model true last0 now
    step.1 :: runRateLimiter step.2 rest

/-- Modelled from the spec: a rate limiter keeping a millisecond-precision
"last request time" *per model* ("a millisecond-precision last request time
kept per model"), with the same `(60000 / RPM) + margin` spacing formula;
used only to compare against the source behaviour. -/
def runRateLimiterPerModelSpec (lastByModel : GeminiModel → Nat) :
    List (GeminiModel × Nat) → List Nat
  | [] => []
  | (model, now) :: rest =>
    let d := minimumDelayMs model
    let last := lastByModel model
    let wait := if now - last < d then d - (now - last) else 0
    wait :: runRateLimiterPerModelSpec
      (fun m => if m = model then now + wait else lastByModel m) rest

/-! ## Claim C8 -/

/-- Claim C8 as stated is false: the source keeps a single module-global
last-request time shared by every model, not one per model.  After a
`gemini-2.5-flash` request at t = 1000000 ms, a `gemini-2.5-pro` request
arriving 1000 ms later is made to wait 11100 ms even though no prior request
was ever issued on that model; per-model tracking (the spec's reading) would
impose no wait. -/
theorem rateLimiter_not_per_model_counterexample :
    runRateLimiter 0 [(.flash25, 1000000), (.pro25, 1001000)] = [0, 11100] ∧
    runRateLimiterPerModelSpec (fun _ => 0) [(.flash25, 1000000), (.pro25, 1001000)] = [0, 0] := by
  decide

/-- Claim C8, amended: with rate limiting enabled the agent enforces a
minimum spacing of `ceil(60000 / RPM) + 100` milliseconds before each
request, measured against a single millisecond-precision module-global
last-request time shared by all models: the updated last-request time is
`max now (last + minimumDelay)` and the wait is exactly the shortfall. -/
theorem enforceRateLimit_spacing (model : GeminiModel) (last now : Nat) (h : last ≤ now) :
    (enforceRateLimitForModel model true last now).2 =
      max now (last + minimumDelayMs model) ∧
    (enforceRateLimitForModel model true last now).1 =
      (enforceRateLimitForModel model true last now).2 - now ∧
    last + minimumDelayMs model ≤ (enforceRateLimitForModel model true last now).2 ∧
    minimumDelayMs model = 60000 / GEMINI_RPM_LIMITS model + 100 := by
  have hdelay : minimumDelayMs model = 60000 / GEMINI_RPM_LIMITS model + 100 := by
    cases model <;> decide
  have hred : enforceRateLimitForModel model true last now =
      if now - last < minimumDelayMs model then
        (minimumDelayMs model - (now - last), now + (minimumDelayMs model - (now - last)))
      else (0, now) := rfl
  rw [hred]
  by_cases hc : now - last < minimumDelayMs model
  · rw [if_pos hc]
    refine ⟨?_, ?_, ?_, hdelay⟩ <;> simp only <;> omega
  · rw [if_neg hc]
    refine ⟨?_, ?_, ?_, hdelay⟩ <;> simp only <;> omega

/-- Witness for the amended C8 theorem: a `gemini-2.5-pro` request 1000 ms
after the shared last-request time waits 11100 ms, landing exactly 12100 ms
after it. -/
theorem enforceRateLimit_spacing_witness :
    1000000 ≤ 1001000 ∧
    ((enforceRateLimitForModel .pro25 true 1000000 1001000).2 =
        max 1001000 (1000000 + minimumDelayMs .pro25) ∧
      1000000 + minimumDelayMs .pro25 ≤
        (enforceRateLimitForModel .pro25 true 1000000 1001000).2) :=
  ⟨by decide,
    ⟨(enforceRateLimit_spacing .pro25 1000000 1001000 (by decide)).1,
      (enforceRateLimit_spacing .pro25 1000000 1001000 (by decide)).2.2.1⟩⟩

/-! ## Checkpoint state loading (CodexHistoryIngestor.ts) -/

/-- A JSON value found in a checkpoint-number position, as discriminated by
`normalizeCheckpointValue` (`typeof value === 'number'`,
`Number.isInteger(value)`, sign check); an absent field is represented by
`Option.none` at the use site. -/
inductive JsonCheckpointValue
  | intNum (n : Int)
  | nonIntegerNumber
  | nonNumber
  deriving DecidableEq, Repr

/-- `normalizeCheckpointValue` from CodexHistoryIngestor.ts: `null` unless
the value is a non-negative integer number. -/
def normalizeCheckpointValue : JsonCheckpointValue → Option Nat
  | .intNum n => if n < 0 then none else some n.toNat
  | .nonIntegerNumber => none
  | .nonNumber => none

/-- The object produced by `JSON.parse` over the checkpoint state file, with
exactly the fields `loadCodexIngestionCheckpointState` inspects.  A field is
`none` when absent (or, for `historyPath`/`updatedAt`, not a string; for
`fileCheckpoints`, not an object). -/
structure ParsedCheckpointFile where
  fileCheckpoints : Option (List (List Char × JsonCheckpointValue))
  historyPath : Option (List Char)
  lastProcessedLineNumber : Option JsonCheckpointValue
  updatedAt : Option (List Char)

/-- JS object-property assignment on an association list: overwrite in
place when the key exists, append otherwise. -/
def setEntry (entries : List (List Char × Nat)) (key : List Char) (value : Nat) :
    List (List Char × Nat) :=
  if entries.any (fun kv => kv.1 = key) then
    entries.map (fun kv => if kv.1 = key then (key, value) else kv)
  else entries ++ [(key, value)]

/-- JS object-property read on an association list. -/
def lookupEntry (entries : List (List Char × Nat)) (key : List Char) : Option Nat :=
  (entries.find? (fun kv => kv.1 = key)).map (fun kv => kv.2)

/-- `CodexIngestionCheckpointState` from CodexHistoryIngestor.ts. -/
structure CodexIngestionCheckpointState where
  fileCheckpoints : List (List Char × Nat)
  updatedAt : List Char
  legacyHistoryPath : Option (List Char)
  legacyLastProcessedLineNumber : Option Nat

/-- `new Date(0).toISOString()`. -/
def epochZeroIso : List Char := "1970-01-01T00:00:00.000Z".toList

/-- `loadCodexIngestionCheckpointState` from CodexHistoryIngestor.ts, on the
successfully parsed JSON object (a missing file or a JSON.parse failure
returns the empty state before reaching this logic): copy the valid entries
of the `fileCheckpoints` map, then migrate a legacy single-file
`{historyPath, lastProcessedLineNumber}` pair into the map under the trimmed
path, keeping the legacy fields mirrored on the result. -/
def loadCodexIngestionCheckpointState (parsed : ParsedCheckpointFile) :
    CodexIngestionCheckpointState :=
  let base : List (List Char × Nat) :=
    (parsed.fileCheckpoints.getD []).foldl
      (fun acc kv =>
        if kv.1 = [] then acc
        else
          match normalizeCheckpointValue kv.2 with
          | none => acc
          | some n => setEntry acc kv.1 n)
      []
  let legacyValue := parsed.lastProcessedLineNumber.bind normalizeCheckpointValue
  let merged :=
    match parsed.historyPath with
    | some hp =>
      if trimChars hp ≠ [] then
        match legacyValue with
        | some n => setEntry base (trimChars hp) n
        | none => base
      else base
    | none => base
  { fileCheckpoints := merged
    updatedAt := parsed.updatedAt.getD epochZeroIso
    legacyHistoryPath := parsed.historyPath
    legacyLastProcessedLineNumber := legacyValue }

/-! ## Claim C9 -/

/-- Claim C9: loading a checkpoint state file written in the legacy
single-file format `{historyPath, lastProcessedLineNumber: N}` (no
`fileCheckpoints` map) yields a state whose `fileCheckpoints` map sends that
history path to `N`. -/
theorem legacy_checkpoint_migration (hp : List Char) (N : Nat)
    (htrim : trimChars hp = hp) (hne : hp ≠ []) :
    lookupEntry
        (loadCodexIngestionCheckpointState
          ⟨none, some hp, some (.intNum (N : Int)), none⟩).fileCheckpoints hp = some N := by
  have hnorm : normalizeCheckpointValue (.intNum (N : Int)) = some N := by
    rw [normalizeCheckpointValue, if_neg (by exact Int.not_lt.mpr (Int.natCast_nonneg N))]
    simp
  simp [loadCodexIngestionCheckpointState, htrim, hne, hnorm, setEntry, lookupEntry]

/-- Witness for C9 at the spec's migration scenario (`N = 42`). -/
theorem legacy_checkpoint_migration_witness :
    trimChars ("/home/user/.codex/history.jsonl").toList =
        ("/home/user/.codex/history.jsonl").toList ∧
    lookupEntry
        (loadCodexIngestionCheckpointState
          ⟨none, some ("/home/user/.codex/history.jsonl").toList,
            some (.intNum (42 : Int)), none⟩).fileCheckpoints
        ("/home/user/.codex/history.jsonl").toList = some 42 :=
  ⟨by decide,
    legacy_checkpoint_migration ("/home/user/.codex/history.jsonl").toList 42
      (by decide) (by decide)⟩

/-! ## postJsonWithRetry (codex-history.ts) -/

/-- `RETRYABLE_STATUS_CODES` from codex-history.ts. -/
def RETRYABLE_STATUS_CODES : List Nat := [408, 425, 429, 500, 502, 503, 504]

/-- `shouldRetryStatus` from codex-history.ts. -/
def shouldRetryStatus (statusCode : Nat) : Bool :=
  RETRYABLE_STATUS_CODES.contains statusCode

/-- `calculateRetryDelayMs` from codex-history.ts:
`baseDelayMs * Math.pow(2, Math.max(0, attempt - 1))` (truncated `Nat`
subtraction already clamps at zero). -/
def calculateRetryDelayMs (attempt baseDelayMs : Nat) : Nat :=
  baseDelayMs * 2 ^ (attempt - 1)

/-- `RetryPolicy` from codex-history.ts. -/
structure RetryPolicy where
  maxAttempts : Nat
  baseDelayMs : Nat

/-- What one `fetchFn` attempt of `postJsonWithRetry` produces:
a 2xx response whose body parses (`ok`), a non-ok response with the given
HTTP status (`httpStatus`), or a thrown error whose message does not start
with a three-digit status (`networkError`). -/
inductive AttemptOutcome
  | ok
  | httpStatus (status : Nat)
  | networkError
  deriving DecidableEq, Repr

/-- Whether an attempt outcome makes the source retry (when attempts
remain): a retryable status or a network error. -/
def isRetryableFailure : AttemptOutcome → Bool
  | .ok => false
  | .httpStatus s => shouldRetryStatus s
  | .networkError => true

inductive RetryOutcome
  | success
  | failedHttp (status : Nat)
  | failedNetwork
  | failedNoAttempt
  deriving DecidableEq, Repr

structure RetryRunResult where
  attemptsMade : Nat
  sleeps : List Nat
  outcome : RetryOutcome
  deriving DecidableEq, Repr

/-- The attempt loop of `postJsonWithRetry` from codex-history.ts, with the
outcome of each 1-based attempt given by `outcomes`.  Branches map to the
source as follows.  `ok`: the `response.ok` path returns the parsed body.
`httpStatus s`: an error `\x7bs\x7d \x7bstatusText\x7d: …` is built; it is thrown when
`!shouldRetryStatus s` or on the last attempt, and the catch block's status
regex then rethrows it for a non-retryable `s` or falls through to the
final-attempt break for a retryable one — in both cases the call fails at
this attempt with no further sleep; otherwise the error is stored and the
loop sleeps `calculateRetryDelayMs` and retries.  `networkError`: the catch
block finds no leading status, so it breaks (and fails) on the last attempt
and otherwise sleeps and retries. -/
def postJsonWithRetryGo (outcomes : Nat → AttemptOutcome) (baseDelayMs : Nat) :
    Nat → Nat → RetryRunResult
  | 0, _ => ⟨0, [], .failedNoAttempt⟩
  | 1, attempt =>
    match outcomes attempt with
    | .ok => ⟨attempt, [], .success⟩
    | .httpStatus s => ⟨attempt, [], .failedHttp s⟩
    | .networkError => ⟨attempt, [], .failedNetwork⟩
  | remaining + 2, attempt =>
    match outcomes attempt with
    | .ok => ⟨attempt, [], .success⟩
    | .httpStatus s =>
      if shouldRetryStatus s then
        let rest := postJsonWithRetryGo outcomes baseDelayMs (remaining + 1) (attempt + 1)
        ⟨rest.attemptsMade, calculateRetryDelayMs attempt baseDelayMs :: rest.sleeps, rest.outcome⟩
      else ⟨attempt, [], .failedHttp s⟩
    | .networkError =>
      let rest := postJsonWithRetryGo outcomes baseDelayMs (remaining + 1) (attempt + 1)
      ⟨rest.attemptsMade, calculateRetryDelayMs attempt baseDelayMs :: rest.sleeps, rest.outcome⟩

/-- `postJsonWithRetry` from codex-history.ts: run up to
`policy.maxAttempts` attempts starting at attempt 1. -/
def postJsonWithRetry (policy : RetryPolicy) (outcomes : Nat → AttemptOutcome) :
    RetryRunResult :=
  postJsonWithRetryGo outcomes policy.baseDelayMs policy.maxAttempts 1

/-- The retry condition asserted by claim C2: 408, 425, 429, or any 5xx. -/
def claimC2RetryableStatus (s : Nat) : Prop :=
  s = 408 ∨ s = 425 ∨ s = 429 ∨ (500 ≤ s ∧ s ≤ 599)

/-- Behaviour of the retry loop from any starting attempt: every attempt
before the stopping one is a retryable failure, sleeps are the exponential
backoff delays of the non-final attempts, and the run stops with the
recorded reason. -/
theorem postJsonWithRetryGo_spec (outcomes : Nat → AttemptOutcome) (base : Nat) :
    ∀ remaining attempt, 1 ≤ remaining →
      attempt ≤ (postJsonWithRetryGo outcomes base remaining attempt).attemptsMade ∧
      (postJsonWithRetryGo outcomes base remaining attempt).attemptsMade ≤
        attempt + remaining - 1 ∧
      (∀ k, attempt ≤ k →
        k < (postJsonWithRetryGo outcomes base remaining attempt).attemptsMade →
        isRetryableFailure (outcomes k) = true) ∧
      (postJsonWithRetryGo outcomes base remaining attempt).sleeps =
        (List.range' attempt
          ((postJsonWithRetryGo outcomes base remaining attempt).attemptsMade - attempt)).map
          (fun a => calculateRetryDelayMs a base) ∧
      ((postJsonWithRetryGo outcomes base remaining attempt).outcome = .success ↔
        outcomes (postJsonWithRetryGo outcomes base remaining attempt).attemptsMade = .ok) ∧
      (∀ s, (postJsonWithRetryGo outcomes base remaining attempt).outcome = .failedHttp s →
        outcomes (postJsonWithRetryGo outcomes base remaining attempt).attemptsMade =
            .httpStatus s ∧
          (shouldRetryStatus s = false ∨
            (postJsonWithRetryGo outcomes base remaining attempt).attemptsMade =
              attempt + remaining - 1)) ∧
      ((postJsonWithRetryGo outcomes base remaining attempt).outcome = .failedNetwork →
        outcomes (postJsonWithRetryGo outcomes base remaining attempt).attemptsMade =
            .networkError ∧
          (postJsonWithRetryGo outcomes base remaining attempt).attemptsMade =
            attempt + remaining - 1) ∧
      ((∀ k, attempt ≤ k → k ≤ attempt + remaining - 1 →
          isRetryableFailure (outcomes k) = true) →
        (postJsonWithRetryGo outcomes base remaining attempt).attemptsMade =
          attempt + remaining - 1) := by
  intro remaining
  induction remaining with
  | zero => intro attempt h; exact absurd h (by omega)
  | succ n ih =>
    intro attempt _
    cases n with
    | zero =>
      rcases houtcome : outcomes attempt with _ | s | _ <;>
        simp only [postJsonWithRetryGo, houtcome] <;>
        refine ⟨le_refl _, by omega, fun k hk1 hk2 => absurd hk2 (by omega), by simp, ?_, ?_, ?_, ?_⟩
      · simp [houtcome]
      · intro s hs; exact absurd hs (by simp)
      · intro hs; exact absurd hs (by simp)
      · intro _; omega
      · simp [houtcome]
      · intro s' hs'
        have : s' = s := by
          cases hs'
          rfl
        subst this
        exact ⟨rfl, Or.inr (by omega)⟩
      · intro hs; exact absurd hs (by simp)
      · intro _; omega
      · simp [houtcome]
      · intro s hs; exact absurd hs (by simp)
      · intro _; exact ⟨trivial, by omega⟩
      · intro _; omega
    | succ m =>
      rcases houtcome : outcomes attempt with _ | s | _
      · simp only [postJsonWithRetryGo, houtcome]
        refine ⟨le_refl _, by omega, fun k hk1 hk2 => absurd hk2 (by omega), by simp, ?_, ?_, ?_, ?_⟩
        · simp [houtcome]
        · intro s hs; exact absurd hs (by simp)
        · intro hs; exact absurd hs (by simp)
        · intro hall
          have := hall attempt (le_refl _) (by omega)
          rw [houtcome] at this
          simp [isRetryableFailure] at this
      · by_cases hs : shouldRetryStatus s = true
        · obtain ⟨r1, r2, r3, r4, r5, r6, r7, r8⟩ := ih (attempt + 1) (by omega)
          simp only [postJsonWithRetryGo, houtcome, hs, if_true]
          refine ⟨by omega, by omega, ?_, ?_, r5, ?_, ?_, ?_⟩
          · intro k hk1 hk2
            rcases Nat.eq_or_lt_of_le hk1 with heq | hlt
            · rw [← heq, houtcome]
              simpa [isRetryableFailure] using hs
            · exact r3 k hlt hk2
          · have hn : (postJsonWithRetryGo outcomes base (m + 1) (attempt + 1)).attemptsMade -
                attempt =
                ((postJsonWithRetryGo outcomes base (m + 1) (attempt + 1)).attemptsMade -
                  (attempt + 1)) + 1 := by omega
            rw [hn, List.range'_succ, List.map_cons, ← r4]
          · intro s' hs'
            obtain ⟨g1, g2⟩ := r6 s' hs'
            exact ⟨g1, g2.imp id (fun he => by omega)⟩
          · intro hnet
            obtain ⟨g1, g2⟩ := r7 hnet
            exact ⟨g1, by omega⟩
          · intro hall
            have := r8 (fun k hk1 hk2 => hall k (by omega) (by omega))
            omega
        · replace hs : shouldRetryStatus s = false := by
            cases hval : shouldRetryStatus s
            · rfl
            · exact absurd hval hs
          simp only [postJsonWithRetryGo, houtcome, hs, Bool.false_eq_true, if_false]
          refine ⟨le_refl _, by omega, fun k hk1 hk2 => absurd hk2 (by omega), by simp, ?_, ?_, ?_, ?_⟩
          · simp [houtcome]
          · intro s' hs'
            have : s' = s := by
              cases hs'
              rfl
            subst this
            exact ⟨rfl, Or.inl hs⟩
          · intro hnet; exact absurd hnet (by simp)
          · intro hall
            have := hall attempt (le_refl _) (by omega)
            rw [houtcome] at this
            simp [isRetryableFailure, hs] at this
      · obtain ⟨r1, r2, r3, r4, r5, r6, r7, r8⟩ := ih (attempt + 1) (by omega)
        simp only [postJsonWithRetryGo, houtcome]
        refine ⟨by omega, by omega, ?_, ?_, r5, ?_, ?_, ?_⟩
        · intro k hk1 hk2
          rcases Nat.eq_or_lt_of_le hk1 with heq | hlt
          · rw [← heq, houtcome]
            simp [isRetryableFailure]
          · exact r3 k hlt hk2
        · have hn : (postJsonWithRetryGo outcomes base (m + 1) (attempt + 1)).attemptsMade -
              attempt =
              ((postJsonWithRetryGo outcomes base (m + 1) (attempt + 1)).attemptsMade -
                (attempt + 1)) + 1 := by omega
          rw [hn, List.range'_succ, List.map_cons, ← r4]
        · intro s' hs'
          obtain ⟨g1, g2⟩ := r6 s' hs'
          exact ⟨g1, g2.imp id (fun he => by omega)⟩
        · intro hnet
          obtain ⟨g1, g2⟩ := r7 hnet
          exact ⟨g1, by omega⟩
        · intro hall
          have := r8 (fun k hk1 hk2 => hall k (by omega) (by omega))
          omega

/-! ## Claim C2 -/

/-- Claim C2 as stated is false: 501 is a 5xx status, so the claim demands a
retry while attempts remain, but `RETRYABLE_STATUS_CODES` contains only
408, 425, 429, 500, 502, 503 and 504 — a 501 response under
`{maxAttempts: 3}` fails immediately after exactly one attempt, with no
backoff sleep. -/
theorem postJson_5xx_not_always_retried_counterexample :
    claimC2RetryableStatus 501 ∧ (1 : Nat) < 3 ∧
    (postJsonWithRetry ⟨3, 5⟩ (fun _ => .httpStatus 501)).attemptsMade = 1 ∧
    (postJsonWithRetry ⟨3, 5⟩ (fun _ => .httpStatus 501)).outcome = .failedHttp 501 ∧
    (postJsonWithRetry ⟨3, 5⟩ (fun _ => .httpStatus 501)).sleeps = [] := by
  refine ⟨Or.inr (Or.inr (Or.inr (by decide))), by decide, by decide, by decide, by decide⟩

/-- Claim C2, amended: a failed attempt is followed by a retry (while
attempts remain) if and only if the HTTP status is one of 408, 425, 429,
500, 502, 503, 504 or the failure is a network error; on any other HTTP
error status (including 5xx statuses such as 501 outside that list) the
call fails at that attempt immediately.  Concretely: every attempt before
the stopping one was a retryable failure; the sleeps are exactly the
exponential-backoff delays of those attempts; a success means the stopping
attempt returned ok; an HTTP failure means the stopping attempt returned
that status and it was either non-retryable or the last allowed attempt; a
network failure can only exhaust all attempts; and when every attempt fails
retryably the loop runs to `maxAttempts`. -/
theorem postJsonWithRetry_retries_iff_retryable (policy : RetryPolicy)
    (outcomes : Nat → AttemptOutcome) (h : 1 ≤ policy.maxAttempts) :
    1 ≤ (postJsonWithRetry policy outcomes).attemptsMade ∧
    (postJsonWithRetry policy outcomes).attemptsMade ≤ policy.maxAttempts ∧
    (∀ k, 1 ≤ k → k < (postJsonWithRetry policy outcomes).attemptsMade →
      isRetryableFailure (outcomes k) = true) ∧
    (postJsonWithRetry policy outcomes).sleeps =
      (List.range' 1 ((postJsonWithRetry policy outcomes).attemptsMade - 1)).map
        (fun a => calculateRetryDelayMs a policy.baseDelayMs) ∧
    ((postJsonWithRetry policy outcomes).outcome = .success ↔
      outcomes (postJsonWithRetry policy outcomes).attemptsMade = .ok) ∧
    (∀ s, (postJsonWithRetry policy outcomes).outcome = .failedHttp s →
      outcomes (postJsonWithRetry policy outcomes).attemptsMade = .httpStatus s ∧
        (shouldRetryStatus s = false ∨
          (postJsonWithRetry policy outcomes).attemptsMade = policy.maxAttempts)) ∧
    ((postJsonWithRetry policy outcomes).outcome = .failedNetwork →
      outcomes (postJsonWithRetry policy outcomes).attemptsMade = .networkError ∧
        (postJsonWithRetry policy outcomes).attemptsMade = policy.maxAttempts) ∧
    ((∀ k, 1 ≤ k → k ≤ policy.maxAttempts → isRetryableFailure (outcomes k) = true) →
      (postJsonWithRetry policy outcomes).attemptsMade = policy.maxAttempts) := by
  have hmain := postJsonWithRetryGo_spec outcomes policy.baseDelayMs policy.maxAttempts 1 h
  have harith : 1 + policy.maxAttempts - 1 = policy.maxAttempts := by omega
  rw [harith] at hmain
  exact hmain

/-- Witness for the amended C2 theorem at the spec's retry-success scenario:
503 twice then 200 under `{maxAttempts: 3, baseDelayMs: 5}` succeeds after
three attempts with backoff sleeps of 5 ms and 10 ms. -/
theorem postJsonWithRetry_retries_iff_retryable_witness :
    (1 : Nat) ≤ 3 ∧
    ((postJsonWithRetry ⟨3, 5⟩
        (fun k => if k ≤ 2 then .httpStatus 503 else .ok)).sleeps =
      (List.range' 1
        ((postJsonWithRetry ⟨3, 5⟩
          (fun k => if k ≤ 2 then .httpStatus 503 else .ok)).attemptsMade - 1)).map
        (fun a => calculateRetryDelayMs a 5)) ∧
    (postJsonWithRetry ⟨3, 5⟩
      (fun k => if k ≤ 2 then .httpStatus 503 else .ok)).sleeps = [5, 10] ∧
    (postJsonWithRetry ⟨3, 5⟩
      (fun k => if k ≤ 2 then .httpStatus 503 else .ok)).outcome = .success :=
  ⟨by decide,
    (postJsonWithRetry_retries_iff_retryable ⟨3, 5⟩
      (fun k => if k ≤ 2 then .httpStatus 503 else .ok) (by decide)).2.2.2.1,
    by decide, by decide⟩

/-! ## parseHistoryFileContents (codex-history.ts) -/

/-- The result of trimming and `JSON.parse`-ing one line of a transcript
file, classified the way `parseHistoryFileContents` tests shapes, in order:
`blank` — the line trims to the empty string (skipped before parsing);
`malformed` — `JSON.parse` throws (skipped);
`legacy` — object with `session_id`, `text` and `ts` all present (their
  `String`/`Number` conversions recorded);
`sessionMeta` — not legacy-shaped, `type = 'session_meta'` with a payload
  (`id`/`cwd` are `some` exactly when the payload carries them as strings);
`eventMsg` — not legacy-shaped, `type = 'event_msg'` with a payload whose
  `type` is the recorded string; `message` is `some` exactly when
  `payload.message` is a string; `tsSec` records
  `parseTimestampToUnixSeconds(timestamp)`;
`other` — any other successfully parsed JSON value. -/
inductive HistLine
  | blank
  | malformed
  | legacy (sessionId : List Char) (ts : Int) (text : List Char)
  | sessionMeta (id : Option (List Char)) (cwd : Option (List Char))
  | eventMsg (payloadType : List Char) (message : Option (List Char)) (tsSec : Int)
  | other
  deriving DecidableEq, Repr

/-- `ParsedCodexHistoryRecord` from codex-history.ts. -/
structure ParsedCodexHistoryRecord where
  session_id : List Char
  ts : Int
  text : List Char
  lineNumber : Nat
  workspacePath : Option (List Char)
  deriving DecidableEq, Repr

def userMessageType : List Char := "user_message".toList

/-- The `currentWorkspacePath` update on a `session_meta` line: the trimmed
`payload.cwd` when it is a string with non-blank content, `undefined`
otherwise. -/
def normalizeCwd : Option (List Char) → Option (List Char)
  | some c => if trimChars c ≠ [] then some (trimChars c) else none
  | none => none

/-- The loop body of `parseHistoryFileContents`, threading
`currentSessionId` and `currentWorkspacePath` and the 0-based line index. -/
def parseHistoryAux (currentSessionId currentWorkspacePath : Option (List Char)) (index : Nat) :
    List HistLine → List ParsedCodexHistoryRecord
  | [] => []
  | line :: rest =>
    match line with
    | .blank => parseHistoryAux currentSessionId currentWorkspacePath (index + 1) rest
    | .malformed => parseHistoryAux currentSessionId currentWorkspacePath (index + 1) rest
    | .other => parseHistoryAux currentSessionId currentWorkspacePath (index + 1) rest
    | .legacy sid ts text =>
      ⟨sid, ts, text, index + 1, none⟩ ::
        parseHistoryAux currentSessionId currentWorkspacePath (index + 1) rest
    | .sessionMeta none _ => parseHistoryAux currentSessionId currentWorkspacePath (index + 1) rest
    | .sessionMeta (some i) cwd =>
      if trimChars i ≠ [] then
        parseHistoryAux (some (trimChars i)) (normalizeCwd cwd) (index + 1) rest
      else parseHistoryAux currentSessionId currentWorkspacePath (index + 1) rest
    | .eventMsg payloadType message tsSec =>
      match currentSessionId with
      | none => parseHistoryAux currentSessionId currentWorkspacePath (index + 1) rest
      | some sid =>
        match message with
        | none => parseHistoryAux currentSessionId currentWorkspacePath (index + 1) rest
        | some m =>
          if payloadType = userMessageType then
            if trimChars m ≠ [] then
              ⟨sid, tsSec, trimChars m, index + 1, currentWorkspacePath⟩ ::
                parseHistoryAux currentSessionId currentWorkspacePath (index + 1) rest
            else parseHistoryAux currentSessionId currentWorkspacePath (index + 1) rest
          else parseHistoryAux currentSessionId currentWorkspacePath (index + 1) rest

/-- `parseHistoryFileContents` from codex-history.ts, over the classified
lines of the file. -/
def parseHistoryFileContents (lines : List HistLine) : List ParsedCodexHistoryRecord :=
  parseHistoryAux none none 0 lines

/-- Where a record produced by `parseHistoryAux` can come from: its line
number points at a line inside the input, and that line is either a legacy
record line or a `user_message` event line preceded (within the input, or
already at entry) by a session id. -/
def RecordSource (lines : List HistLine) (sid : Option (List Char)) (idx : Nat)
    (r : ParsedCodexHistoryRecord) : Prop :=
  ∃ k, k < lines.length ∧ r.lineNumber = idx + k + 1 ∧
    ((∃ s t txt, lines[k]? = some (.legacy s t txt)) ∨
      ((∃ m ts', lines[k]? = some (.eventMsg userMessageType (some m) ts')) ∧
        (sid.isSome = true ∨
          ∃ j, j < k ∧ ∃ i cwd, lines[j]? = some (.sessionMeta (some i) cwd) ∧
            trimChars i ≠ [])))

theorem recordSource_cons (head : HistLine) (rest : List HistLine)
    (sid sid' : Option (List Char)) (idx : Nat) (r : ParsedCodexHistoryRecord)
    (h : RecordSource rest sid' (idx + 1) r)
    (hsid : sid'.isSome = true →
      (sid.isSome = true ∨ ∃ i cwd, head = .sessionMeta (some i) cwd ∧ trimChars i ≠ [])) :
    RecordSource (head :: rest) sid idx r := by
  obtain ⟨k, hk, hline, hsrc⟩ := h
  refine ⟨k + 1, by simpa using Nat.succ_lt_succ hk, by omega, ?_⟩
  rcases hsrc with ⟨s, t, txt, hget⟩ | ⟨⟨m, ts', hget⟩, hmeta⟩
  · exact Or.inl ⟨s, t, txt, by simpa using hget⟩
  · refine Or.inr ⟨⟨m, ts', by simpa using hget⟩, ?_⟩
    rcases hmeta with hsome | ⟨j, hj, i, cwd, hgetj, htrim⟩
    · rcases hsid hsome with hleft | ⟨i, cwd, hhead, htrim⟩
      · exact Or.inl hleft
      · exact Or.inr ⟨0, by omega, i, cwd, by simpa using hhead, htrim⟩
    · exact Or.inr ⟨j + 1, by omega, i, cwd, by simpa using hgetj, htrim⟩

/-- Every record produced by the parser loop has a `RecordSource`. -/
theorem parseHistoryAux_sound (lines : List HistLine) :
    ∀ sid wp idx r, r ∈ parseHistoryAux sid wp idx lines → RecordSource lines sid idx r := by
  induction lines with
  | nil => intro sid wp idx r hr; simp [parseHistoryAux] at hr
  | cons head rest ih =>
    intro sid wp idx r hr
    match head with
    | .blank =>
      exact recordSource_cons _ _ _ _ _ _ (ih sid wp (idx + 1) r hr) (fun h => Or.inl h)
    | .malformed =>
      exact recordSource_cons _ _ _ _ _ _ (ih sid wp (idx + 1) r hr) (fun h => Or.inl h)
    | .other =>
      exact recordSource_cons _ _ _ _ _ _ (ih sid wp (idx + 1) r hr) (fun h => Or.inl h)
    | .legacy s t txt =>
      rw [parseHistoryAux] at hr
      rcases List.mem_cons.mp hr with heq | hmem
      · exact ⟨0, by simp, by simp [heq], Or.inl ⟨s, t, txt, by simp⟩⟩
      · exact recordSource_cons _ _ _ _ _ _ (ih sid wp (idx + 1) r hmem) (fun h => Or.inl h)
    | .sessionMeta none cwd =>
      rw [parseHistoryAux] at hr
      exact recordSource_cons _ _ _ _ _ _ (ih sid wp (idx + 1) r hr) (fun h => Or.inl h)
    | .sessionMeta (some i) cwd =>
      rw [parseHistoryAux] at hr
      by_cases htrim : trimChars i ≠ []
      · rw [if_pos htrim] at hr
        refine recordSource_cons _ _ _ _ _ _ (ih _ _ (idx + 1) r hr) ?_
        intro _
        exact Or.inr ⟨i, cwd, rfl, htrim⟩
      · rw [if_neg htrim] at hr
        exact recordSource_cons _ _ _ _ _ _ (ih sid wp (idx + 1) r hr) (fun h => Or.inl h)
    | .eventMsg ptype msg tsSec =>
      rcases hsid : sid with _ | s
      · subst hsid
        rw [parseHistoryAux] at hr
        exact recordSource_cons _ _ _ _ _ _ (ih _ wp (idx + 1) r hr) (fun h => Or.inl h)
      · subst hsid
        rcases msg with _ | m
        · rw [parseHistoryAux] at hr
          exact recordSource_cons _ _ _ _ _ _ (ih _ wp (idx + 1) r hr) (fun h => Or.inl h)
        · rw [parseHistoryAux] at hr
          by_cases hpt : ptype = userMessageType
          · rw [if_pos hpt] at hr
            by_cases hm : trimChars m ≠ []
            · rw [if_pos hm] at hr
              rcases List.mem_cons.mp hr with heq | hmem
              · subst hpt
                exact ⟨0, by simp, by simp [heq],
                  Or.inr ⟨⟨m, tsSec, by simp⟩, Or.inl (by simp)⟩⟩
              · exact recordSource_cons _ _ _ _ _ _ (ih _ wp (idx + 1) r hmem)
                  (fun h => Or.inl h)
            · rw [if_neg hm] at hr
              exact recordSource_cons _ _ _ _ _ _ (ih _ wp (idx + 1) r hr) (fun h => Or.inl h)
          · rw [if_neg hpt] at hr
            exact recordSource_cons _ _ _ _ _ _ (ih _ wp (idx + 1) r hr) (fun h => Or.inl h)

/-! ## Claim C10 -/

/-- Claim C10: in the structured session-transcript format,
`parseHistoryFileContents` produces a record for an `event_msg`
`user_message` line only if a `session_meta` line carrying a non-empty
session id occurred earlier in the file; and blank lines and malformed JSON
lines never yield a record (so in particular a `user_message` line appearing
before any such `session_meta` line yields no record). -/
theorem parseHistory_user_message_needs_session_meta (lines : List HistLine) :
    (∀ r ∈ parseHistoryFileContents lines,
      ∀ m ts', lines[r.lineNumber - 1]? = some (.eventMsg userMessageType m ts') →
        ∃ j, j < r.lineNumber - 1 ∧
          ∃ i cwd, lines[j]? = some (.sessionMeta (some i) cwd) ∧ trimChars i ≠ []) ∧
    (∀ idx, (lines[idx]? = some .blank ∨ lines[idx]? = some .malformed) →
      ∀ r ∈ parseHistoryFileContents lines, r.lineNumber ≠ idx + 1) := by
  constructor
  · intro r hr m ts' hline
    obtain ⟨k, hk, hnum, hsrc⟩ := parseHistoryAux_sound lines none none 0 r hr
    have hkeq : r.lineNumber - 1 = k := by omega
    rw [hkeq] at hline
    rcases hsrc with ⟨s, t, txt, hget⟩ | ⟨⟨m', ts'', hget⟩, hmeta⟩
    · rw [hget] at hline
      exact absurd hline (by simp)
    · rcases hmeta with hsome | ⟨j, hj, i, cwd, hgetj, htrim⟩
      · exact absurd hsome (by simp)
      · exact ⟨j, by omega, i, cwd, hgetj, htrim⟩
  · intro idx hidx r hr hnum
    obtain ⟨k, hk, hknum, hsrc⟩ := parseHistoryAux_sound lines none none 0 r hr
    have hkeq : k = idx := by omega
    subst hkeq
    rcases hsrc with ⟨s, t, txt, hget⟩ | ⟨⟨m', ts'', hget⟩, _⟩ <;>
      rcases hidx with hb | hb <;>
      rw [hget] at hb <;> simp at hb

/-- Witness for C10 on a concrete five-line transcript: the only record
comes from the `user_message` on line 3, which follows the `session_meta` on
line 2; the `user_message` on line 1 (before any `session_meta`), the blank
line 4 and the malformed line 5 yield nothing. -/
theorem parseHistory_user_message_needs_session_meta_witness :
    (⟨("abc").toList, 7, ("yo").toList, 3, none⟩ : ParsedCodexHistoryRecord) ∈
        parseHistoryFileContents
          [.eventMsg userMessageType (some ("hi").toList) 5,
            .sessionMeta (some ("abc").toList) none,
            .eventMsg userMessageType (some ("yo").toList) 7,
            .blank, .malformed] ∧
    ∃ j, j < 2 ∧
      ∃ i cwd,
        ([.eventMsg userMessageType (some ("hi").toList) 5,
          .sessionMeta (some ("abc").toList) none,
          .eventMsg userMessageType (some ("yo").toList) 7,
          .blank, .malformed] : List HistLine)[j]? = some (.sessionMeta (some i) cwd) ∧
          trimChars i ≠ [] :=
  ⟨by decide,
    (parseHistory_user_message_needs_session_meta
      [.eventMsg userMessageType (some ("hi").toList) 5,
        .sessionMeta (some ("abc").toList) none,
        .eventMsg userMessageType (some ("yo").toList) 7,
        .blank, .malformed]).1
      ⟨("abc").toList, 7, ("yo").toList, 3, none⟩ (by decide)
      (some ("yo").toList) 7 (by decide)⟩

/-! ## selectRecordsForIngestion and checkpoint advance
(codex-history.ts / CodexHistoryIngestor.ts) -/

/-- `isSystemRecord` from codex-history.ts. -/
def isSystemRecord (text : List Char) : Bool :=
  let trimmed := trimChars text
  if trimmed = [] then true
  else
    ("⚠".toList).isPrefixOf trimmed ||
      ("[experimental]".toList).isPrefixOf trimmed ||
      occursIn ("MCP startup incomplete".toList) trimmed ||
      (occursIn ("MCP client".toList) trimmed && occursIn ("timed out".toList) trimmed)

/-- `CodexIngestionState` from codex-history.ts. -/
structure CodexIngestionState where
  historyPath : List Char
  lastProcessedLineNumber : Nat
  updatedAt : List Char
  deriving DecidableEq, Repr

/-- `CodexRecordSelectionOptions` from codex-history.ts. -/
structure CodexRecordSelectionOptions where
  historyPath : List Char
  includeSystem : Bool
  previousState : Option CodexIngestionState
  sinceTs : Option Int
  limit : Option Nat

/-- The sort comparator `(left, right) => left.lineNumber - right.lineNumber`
of `selectRecordsForIngestion`, as the `le` relation it induces. -/
def recordLineLe (a b : ParsedCodexHistoryRecord) : Prop :=
  a.lineNumber ≤ b.lineNumber

instance : DecidableRel recordLineLe :=
  fun a b => inferInstanceAs (Decidable (a.lineNumber ≤ b.lineNumber))

instance : IsTotal ParsedCodexHistoryRecord recordLineLe :=
  ⟨fun a b => Nat.le_total a.lineNumber b.lineNumber⟩

instance : IsTrans ParsedCodexHistoryRecord recordLineLe :=
  ⟨fun _ _ _ => Nat.le_trans⟩

/-- `selectRecordsForIngestion` from codex-history.ts: drop system records
unless `includeSystem`, keep only lines strictly beyond the checkpoint of
this file (when the previous state names it), apply `sinceTs`, sort by line
number, cap by `limit`. -/
def selectRecordsForIngestion (rawRecords : List ParsedCodexHistoryRecord)
    (options : CodexRecordSelectionOptions) : List ParsedCodexHistoryRecord :=
  let s1 := if options.includeSystem then rawRecords
    else rawRecords.filter (fun record => !isSystemRecord record.text)
  let s2 :=
    match options.previousState with
    | some st =>
      if st.historyPath = options.historyPath then
        s1.filter (fun (record : ParsedCodexHistoryRecord) =>
          st.lastProcessedLineNumber < record.lineNumber)
      else s1
    | none => s1
  let s3 :=
    match options.sinceTs with
    | some sinceTs =>
      s2.filter (fun (record : ParsedCodexHistoryRecord) => sinceTs ≤ record.ts)
    | none => s2
  let s4 := List.insertionSort recordLineLe s3
  match options.limit with
  | some n => s4.take n
  | none => s4

/-- The checkpoint-advance loop of `runCodexHistoryIngestion`: each
successfully ingested record of a file overwrites that file's checkpoint
with its line number, in ingestion order. -/
def updatedCheckpointsAfterRun (checkpoints : List (List Char × Nat)) (historyPath : List Char)
    (ingested : List ParsedCodexHistoryRecord) : List (List Char × Nat) :=
  ingested.foldl (fun acc record => setEntry acc historyPath record.lineNumber) checkpoints

theorem find?_key_append (key : List Char) (value : Nat) :
    ∀ l : List (List Char × Nat), (∀ kv ∈ l, ¬ kv.1 = key) →
      (l ++ [(key, value)]).find? (fun kv => kv.1 = key) = some (key, value) := by
  intro l
  induction l with
  | nil => simp
  | cons a t ih =>
    intro h
    have ha := h a (by simp)
    rw [List.cons_append, List.find?_cons]
    rw [show (decide (a.1 = key)) = false by simp [ha]]
    exact ih (fun kv hkv => h kv (List.mem_cons_of_mem a hkv))

theorem find?_key_map_overwrite (key : List Char) (value : Nat) :
    ∀ l : List (List Char × Nat), (∃ kv ∈ l, kv.1 = key) →
      (l.map (fun kv => if kv.1 = key then (key, value) else kv)).find?
          (fun kv => kv.1 = key) = some (key, value) := by
  intro l
  induction l with
  | nil =>
    rintro ⟨kv, h, _⟩
    simp at h
  | cons a t ih =>
    rintro ⟨kv, hkv, hkey⟩
    by_cases ha : a.1 = key
    · simp [ha]
    · have hmem : ∃ kv ∈ t, kv.1 = key := by
        rcases List.mem_cons.mp hkv with heq | hm
        · subst heq
          exact absurd hkey ha
        · exact ⟨kv, hm, hkey⟩
      rw [List.map_cons, List.find?_cons, if_neg ha]
      rw [show (decide (a.1 = key)) = false by simp [ha]]
      exact ih hmem

theorem lookupEntry_setEntry_self (entries : List (List Char × Nat)) (key : List Char)
    (value : Nat) : lookupEntry (setEntry entries key value) key = some value := by
  by_cases hany : entries.any (fun kv => kv.1 = key) = true
  · obtain ⟨kv, hkv, hkey⟩ := List.any_eq_true.mp hany
    rw [setEntry, if_pos hany, lookupEntry,
      find?_key_map_overwrite key value entries ⟨kv, hkv, of_decide_eq_true hkey⟩]
    rfl
  · have hnone : ∀ kv ∈ entries, ¬ kv.1 = key := by
      intro kv hkv he
      exact hany (List.any_eq_true.mpr ⟨kv, hkv, by simp [he]⟩)
    rw [setEntry, if_neg hany, lookupEntry, find?_key_append key value entries hnone]
    rfl

theorem updatedCheckpoints_last (historyPath : List Char)
    (ingested : List ParsedCodexHistoryRecord) (hne : ingested ≠ []) :
    ∀ checkpoints, lookupEntry (updatedCheckpointsAfterRun checkpoints historyPath ingested)
      historyPath = some ((ingested.getLast hne).lineNumber) := by
  induction ingested with
  | nil => exact absurd rfl hne
  | cons a t ih =>
    intro checkpoints
    cases t with
    | nil =>
      simp only [updatedCheckpointsAfterRun, List.foldl_cons, List.foldl_nil, List.getLast_singleton]
      exact lookupEntry_setEntry_self checkpoints historyPath a.lineNumber
    | cons b t2 =>
      have hne2 : b :: t2 ≠ [] := by simp
      rw [List.getLast_cons hne2]
      simpa [updatedCheckpointsAfterRun] using ih hne2 (setEntry checkpoints historyPath a.lineNumber)

theorem pairwise_le_getLast (l : List ParsedCodexHistoryRecord)
    (hp : List.Pairwise recordLineLe l) (hne : l ≠ []) :
    ∀ r ∈ l, r.lineNumber ≤ (l.getLast hne).lineNumber := by
  induction l with
  | nil => exact absurd rfl hne
  | cons a t ih =>
    intro r hr
    cases t with
    | nil =>
      rcases List.mem_cons.mp hr with heq | hmem
      · subst heq
        simp [List.getLast_singleton]
      · simp at hmem
    | cons b t2 =>
      have hne2 : b :: t2 ≠ [] := by simp
      rw [List.getLast_cons hne2]
      rcases List.mem_cons.mp hr with heq | hmem
      · subst heq
        exact (List.pairwise_cons.mp hp).1 _ (List.getLast_mem hne2)
      · exact ih (List.pairwise_cons.mp hp).2 hne2 r hmem

/-- Membership in the un-capped selection: a record is selected exactly when
it is a raw record that passes the system filter, lies strictly beyond the
checkpoint, and is not older than `sinceTs`. -/
theorem mem_selectRecords_no_limit (raw : List ParsedCodexHistoryRecord)
    (path upd : List Char) (inclSys : Bool) (sinceTs : Option Int) (c : Nat)
    (r : ParsedCodexHistoryRecord) :
    r ∈ selectRecordsForIngestion raw ⟨path, inclSys, some ⟨path, c, upd⟩, sinceTs, none⟩ ↔
      (r ∈ raw ∧ (inclSys = true ∨ isSystemRecord r.text = false) ∧ c < r.lineNumber ∧
        ∀ t, sinceTs = some t → t ≤ r.ts) := by
  rw [selectRecordsForIngestion]
  simp only [eq_self_iff_true, if_true]
  rw [(List.perm_insertionSort _ _).mem_iff]
  cases hsys : inclSys <;> cases sinceTs <;>
    simp [List.mem_filter] <;> tauto

/-- The sorted, un-capped selection is pairwise ordered by line number. -/
theorem select_pairwise (raw : List ParsedCodexHistoryRecord) (path upd : List Char)
    (inclSys : Bool) (sinceTs : Option Int) (c : Nat) :
    List.Pairwise recordLineLe
      (selectRecordsForIngestion raw ⟨path, inclSys, some ⟨path, c, upd⟩, sinceTs, none⟩) := by
  rw [selectRecordsForIngestion]
  simp only
  exact List.sorted_insertionSort recordLineLe _

/-! ## Claim C3 -/

/-- Claim C3: re-running ingestion over an unchanged transcript file with
the checkpoint state saved by a previous successful (un-capped, fully
ingested) run selects zero records — so the re-run performs no writes, since
`runCodexHistoryIngestion` returns before contacting the worker when the
selection is empty.  Per file, only records with line numbers strictly
greater than the stored checkpoint line are selected, and after a run the
checkpoint of the touched file equals the line number of its last
successfully ingested record. -/
theorem ingestion_rerun_selects_nothing (raw : List ParsedCodexHistoryRecord)
    (path upd upd2 : List Char) (includeSystem : Bool) (sinceTs : Option Int) (c0 : Nat)
    (checkpoints : List (List Char × Nat))
    (hne : selectRecordsForIngestion raw
      ⟨path, includeSystem, some ⟨path, c0, upd⟩, sinceTs, none⟩ ≠ []) :
    (∀ r ∈ selectRecordsForIngestion raw
        ⟨path, includeSystem, some ⟨path, c0, upd⟩, sinceTs, none⟩,
      c0 < r.lineNumber) ∧
    lookupEntry
        (updatedCheckpointsAfterRun checkpoints path
          (selectRecordsForIngestion raw
            ⟨path, includeSystem, some ⟨path, c0, upd⟩, sinceTs, none⟩))
        path =
      some (((selectRecordsForIngestion raw
          ⟨path, includeSystem, some ⟨path, c0, upd⟩, sinceTs, none⟩).getLast hne).lineNumber) ∧
    selectRecordsForIngestion raw
      ⟨path, includeSystem,
        some ⟨path,
          ((selectRecordsForIngestion raw
            ⟨path, includeSystem, some ⟨path, c0, upd⟩, sinceTs, none⟩).getLast hne).lineNumber,
          upd2⟩,
        sinceTs, none⟩ = [] := by
  have hbound : ∀ r ∈ selectRecordsForIngestion raw
      ⟨path, includeSystem, some ⟨path, c0, upd⟩, sinceTs, none⟩, c0 < r.lineNumber := by
    intro r hr
    exact ((mem_selectRecords_no_limit raw path upd includeSystem sinceTs c0 r).mp hr).2.2.1
  refine ⟨hbound, updatedCheckpoints_last path _ hne checkpoints, ?_⟩
  rw [List.eq_nil_iff_forall_not_mem]
  intro r hr
  obtain ⟨hraw, hsys, hgt, hsince⟩ :=
    (mem_selectRecords_no_limit raw path upd2 includeSystem sinceTs _ r).mp hr
  have hc0 : c0 <
      ((selectRecordsForIngestion raw
        ⟨path, includeSystem, some ⟨path, c0, upd⟩, sinceTs, none⟩).getLast hne).lineNumber :=
    hbound _ (List.getLast_mem hne)
  have hrsel : r ∈ selectRecordsForIngestion raw
      ⟨path, includeSystem, some ⟨path, c0, upd⟩, sinceTs, none⟩ :=
    (mem_selectRecords_no_limit raw path upd includeSystem sinceTs c0 r).mpr
      ⟨hraw, hsys, by omega, hsince⟩
  have hle := pairwise_le_getLast _
    (select_pairwise raw path upd includeSystem sinceTs c0) hne r hrsel
  omega

/-- Witness for C3 on a two-record file with checkpoint 0: both records are
selected, the checkpoint advances to line 2, and re-selecting against
checkpoint 2 yields
nothing. -/
theorem ingestion_rerun_selects_nothing_witness :
    (selectRecordsForIngestion
        [⟨("s1").toList, 5, ("hello").toList, 1, none⟩,
          ⟨("s1").toList, 6, ("world").toList, 2, none⟩]
        ⟨("h.jsonl").toList, false, some ⟨("h.jsonl").toList, 0, []⟩, none, none⟩ ≠ []) ∧
    (lookupEntry
        (updatedCheckpointsAfterRun [] ("h.jsonl").toList
          (selectRecordsForIngestion
            [⟨("s1").toList, 5, ("hello").toList, 1, none⟩,
              ⟨("s1").toList, 6, ("world").toList, 2, none⟩]
            ⟨("h.jsonl").toList, false, some ⟨("h.jsonl").toList, 0, []⟩, none, none⟩))
        ("h.jsonl").toList = some 2 ∧
      selectRecordsForIngestion
        [⟨("s1").toList, 5, ("hello").toList, 1, none⟩,
          ⟨("s1").toList, 6, ("world").toList, 2, none⟩]
        ⟨("h.jsonl").toList, false, some ⟨("h.jsonl").toList, 2, []⟩, none, none⟩ = []) := by
  refine ⟨by decide, ?_, ?_⟩
  · have h := (ingestion_rerun_selects_nothing
      [⟨("s1").toList, 5, ("hello").toList, 1, none⟩,
        ⟨("s1").toList, 6, ("world").toList, 2, none⟩]
      ("h.jsonl").toList [] [] false none 0 [] (by decide)).2.1
    rwa [show ((selectRecordsForIngestion
        [⟨("s1").toList, 5, ("hello").toList, 1, none⟩,
          ⟨("s1").toList, 6, ("world").toList, 2, none⟩]
        ⟨("h.jsonl").toList, false, some ⟨("h.jsonl").toList, 0, []⟩, none, none⟩).getLast
          (by decide)).lineNumber = 2 from by decide] at h
  · have h := (ingestion_rerun_selects_nothing
      [⟨("s1").toList, 5, ("hello").toList, 1, none⟩,
        ⟨("s1").toList, 6, ("world").toList, 2, none⟩]
      ("h.jsonl").toList [] [] false none 0 [] (by decide)).2.2
    rwa [show ((selectRecordsForIngestion
        [⟨("s1").toList, 5, ("hello").toList, 1, none⟩,
          ⟨("s1").toList, 6, ("world").toList, 2, none⟩]
        ⟨("h.jsonl").toList, false, some ⟨("h.jsonl").toList, 0, []⟩, none, none⟩).getLast
          (by decide)).lineNumber = 2 from by decide] at h

/-! ## PendingQueue

Modelled from the spec: `PendingMessageStore` is code of this repository
that is not under src/ (only its test and callers appear there).  The spec
fixes its contract: enqueue appends a row with a monotonic id under a
per-session cap (over-cap enqueues rejected), and `claimAndDelete` removes
and returns, in one atomic step, the message that is minimal in the strict
order "priority (summarize 0 < observation 1) ascending, then id
ascending". -/

inductive PendingMessageType
  | summarize
  | observation
  deriving DecidableEq, Repr

/-- Modelled from the spec: a PendingMessage row (payload omitted — the
claim concerns type and id only). -/
structure PendingMessage where
  id : Nat
  message_type : PendingMessageType
  deriving DecidableEq, Repr

/-- Modelled from the spec: priority 0 for summarize, 1 for observation. -/
def messagePriority : PendingMessageType → Nat
  | .summarize => 0
  | .observation => 1

/-- Modelled from the spec: the strict claim order — priority ascending,
then id ascending. -/
def claimBefore (a b : PendingMessage) : Prop :=
  messagePriority a.message_type < messagePriority b.message_type ∨
    (messagePriority a.message_type = messagePriority b.message_type ∧ a.id < b.id)

instance : DecidableRel claimBefore :=
  fun a b =>
    inferInstanceAs (Decidable
      (messagePriority a.message_type < messagePriority b.message_type ∨
        (messagePriority a.message_type = messagePriority b.message_type ∧ a.id < b.id)))

/-- Its reflexive companion. -/
def claimLe (a b : PendingMessage) : Prop :=
  messagePriority a.message_type < messagePriority b.message_type ∨
    (messagePriority a.message_type = messagePriority b.message_type ∧ a.id ≤ b.id)

/-- Modelled from the spec: one session's pending queue (monotonic id
counter plus the live rows in insertion order). -/
structure PendingQueueState where
  nextId : Nat
  messages : List PendingMessage
  deriving DecidableEq, Repr

def emptyQueue : PendingQueueState := ⟨1, []⟩

/-- Modelled from the spec: `enqueue` with the per-session cap — a full
queue rejects the message and changes nothing. -/
def enqueue (cap : Nat) (st : PendingQueueState) (t : PendingMessageType) : PendingQueueState :=
  if st.messages.length < cap then ⟨st.nextId + 1, st.messages ++ [⟨st.nextId, t⟩]⟩
  else st

def applyEnqueues (cap : Nat) (st : PendingQueueState) :
    List PendingMessageType → PendingQueueState
  | [] => st
  | t :: rest => applyEnqueues cap (enqueue cap st t) rest

/-- The row minimal in claim order (`ORDER BY priority ASC, id ASC LIMIT 1`). -/
def pickMin (m : PendingMessage) : List PendingMessage → PendingMessage
  | [] => m
  | x :: xs => if claimBefore x m then pickMin x xs else pickMin m xs

/-- Modelled from the spec: `claimAndDelete` — atomically remove and return
the minimal row; `none` on an empty queue. -/
def claimAndDelete (st : PendingQueueState) : Option (PendingMessage × PendingQueueState) :=
  match st.messages with
  | [] => none
  | m :: rest =>
    let claimed := pickMin m rest
    some (claimed, ⟨st.nextId, (m :: rest).erase claimed⟩)

/-- Successive `claimAndDelete` calls until the queue is empty (`fuel`
bounds recursion; each claim removes one row, so the queue length
suffices). -/
def drainQueueFuel : Nat → PendingQueueState → List PendingMessage
  | 0, _ => []
  | fuel + 1, st =>
    match claimAndDelete st with
    | none => []
    | some (m, st') => m :: drainQueueFuel fuel st'

def drainQueue (st : PendingQueueState) : List PendingMessage :=
  drainQueueFuel st.messages.length st

theorem pickMin_mem (m : PendingMessage) : ∀ l, pickMin m l ∈ m :: l := by
  intro l
  induction l generalizing m with
  | nil => simp [pickMin]
  | cons x xs ih =>
    rw [pickMin]
    by_cases h : claimBefore x m
    · rw [if_pos h]
      rcases List.mem_cons.mp (ih x) with heq | hmem
      · simp [heq]
      · simp [List.mem_cons_of_mem, hmem]
    · rw [if_neg h]
      rcases List.mem_cons.mp (ih m) with heq | hmem
      · simp [heq]
      · simp [List.mem_cons_of_mem, hmem]

theorem claimLe_of_not_claimBefore (a b : PendingMessage) (h : ¬ claimBefore a b) :
    claimLe b a := by
  rw [claimBefore] at h
  rw [claimLe]
  omega

theorem claimLe_trans (a b c : PendingMessage) (h1 : claimLe a b) (h2 : claimLe b c) :
    claimLe a c := by
  rw [claimLe] at *
  omega

theorem pickMin_le (m : PendingMessage) : ∀ l, ∀ y ∈ m :: l, claimLe (pickMin m l) y := by
  intro l
  induction l generalizing m with
  | nil =>
    intro y hy
    rw [pickMin]
    rcases List.mem_cons.mp hy with heq | hmem
    · rw [heq, claimLe]
      omega
    · exact absurd hmem (by simp)
  | cons x xs ih =>
    intro y hy
    rw [pickMin]
    by_cases h : claimBefore x m
    · rw [if_pos h]
      rcases List.mem_cons.mp hy with heq | hmem
      · have h1 : claimLe (pickMin x xs) x := ih x x (by simp)
        have h2 : claimLe x y := by
          rw [heq]
          rw [claimBefore] at h
          rw [claimLe]
          omega
        exact claimLe_trans _ _ _ h1 h2
      · exact ih x y hmem
    · rw [if_neg h]
      have h1 : claimLe (pickMin m xs) m := ih m m (by simp)
      rcases List.mem_cons.mp hy with heq | hmem
      · rw [heq]
        exact h1
      · rcases List.mem_cons.mp hmem with heq2 | hmem2
        · rw [heq2]
          exact claimLe_trans _ _ _ h1 (claimLe_of_not_claimBefore x m h)
        · exact ih m y (List.mem_cons_of_mem m hmem2)

theorem drainQueueFuel_perm :
    ∀ fuel n (l : List PendingMessage), l.length ≤ fuel →
      (drainQueueFuel fuel ⟨n, l⟩).Perm l := by
  intro fuel
  induction fuel with
  | zero =>
    intro n l hl
    have hnil : l = [] := List.length_eq_zero.mp (by omega)
    subst hnil
    exact List.Perm.nil
  | succ f ih =>
    intro n l hl
    cases l with
    | nil => rfl
    | cons m rest =>
      rw [drainQueueFuel]
      simp only [claimAndDelete]
      have hmem := pickMin_mem m rest
      have hperm : (m :: rest).Perm (pickMin m rest :: (m :: rest).erase (pickMin m rest)) :=
        List.perm_cons_erase hmem
      have hlen : ((m :: rest).erase (pickMin m rest)).length ≤ f := by
        rw [List.length_erase_of_mem hmem]
        simp at hl ⊢
        omega
      exact ((ih n _ hlen).cons _).trans hperm.symm

theorem drainQueueFuel_pairwise :
    ∀ fuel n (l : List PendingMessage), l.length ≤ fuel →
      List.Pairwise (fun a b => a.id ≠ b.id) l →
      List.Pairwise claimBefore (drainQueueFuel fuel ⟨n, l⟩) := by
  intro fuel
  induction fuel with
  | zero => intro n l _ _; exact List.Pairwise.nil
  | succ f ih =>
    intro n l hl hids
    cases l with
    | nil => exact List.Pairwise.nil
    | cons m rest =>
      rw [drainQueueFuel]
      simp only [claimAndDelete]
      have hmem := pickMin_mem m rest
      have hnodup : (m :: rest).Nodup := (hids.imp (fun hab => by
        intro he
        exact hab (by rw [he])))
      have hlen : ((m :: rest).erase (pickMin m rest)).length ≤ f := by
        rw [List.length_erase_of_mem hmem]
        simp at hl ⊢
        omega
      have hids' : List.Pairwise (fun a b => a.id ≠ b.id) ((m :: rest).erase (pickMin m rest)) :=
        hids.sublist (List.erase_sublist _ _)
      refine List.pairwise_cons.mpr ⟨?_, ih n _ hlen hids'⟩
      intro y hy
      have hy2 : y ∈ (m :: rest).erase (pickMin m rest) :=
        (drainQueueFuel_perm f n _ hlen).mem_iff.mp hy
      have hyne : y ≠ pickMin m rest ∧ y ∈ m :: rest :=
        (List.Nodup.mem_erase_iff hnodup).mp hy2
      have hle := pickMin_le m rest y hyne.2
      have hidne : (pickMin m rest).id ≠ y.id := by
        intro he
        apply hyne.1
        have h1 : pickMin m rest ∈ m :: rest := hmem
        -- distinct ids in m :: rest force equality of the rows
        have := List.Pairwise.forall (R := fun a b : PendingMessage => a.id ≠ b.id)
          (fun a b hab => (by intro he2; exact hab he2.symm : b.id ≠ a.id)) hids
        by_cases heq : y = pickMin m rest
        · exact heq
        · exact absurd he.symm (this hyne.2 h1 heq)
      rw [claimLe] at hle
      rw [claimBefore]
      omega

/-! ## Claim C1 -/

/-- Claim C1: for every cap and every sequence of enqueue operations on a
single session's pending queue, successive `claimAndDelete` calls return
all queued messages, every summarize before every observation regardless of
insertion order, and within each message type in ascending id order. -/
theorem pending_queue_claim_order (cap : Nat) (ops : List PendingMessageType) :
    (drainQueue (applyEnqueues cap emptyQueue ops)).Perm
        (applyEnqueues cap emptyQueue ops).messages ∧
    List.Pairwise
      (fun a b =>
        (a.message_type = .observation → b.message_type = .observation) ∧
        (a.message_type = b.message_type → a.id < b.id))
      (drainQueue (applyEnqueues cap emptyQueue ops)) := by
  have hinv : ∀ (ops : List PendingMessageType) (st : PendingQueueState),
      List.Pairwise (fun a b => a.id < b.id) st.messages →
      (∀ m ∈ st.messages, m.id < st.nextId) →
      List.Pairwise (fun a b => a.id < b.id) (applyEnqueues cap st ops).messages ∧
        ∀ m ∈ (applyEnqueues cap st ops).messages, m.id < (applyEnqueues cap st ops).nextId := by
    intro ops
    induction ops with
    | nil => intro st h1 h2; exact ⟨h1, h2⟩
    | cons t rest ih =>
      intro st h1 h2
      rw [applyEnqueues]
      by_cases hcap : st.messages.length < cap
      · rw [show enqueue cap st t = ⟨st.nextId + 1, st.messages ++ [⟨st.nextId, t⟩]⟩ from by
          rw [enqueue, if_pos hcap]]
        refine ih ⟨st.nextId + 1, st.messages ++ [⟨st.nextId, t⟩]⟩ ?_ ?_
        · refine List.pairwise_append.mpr ⟨h1, by simp, ?_⟩
          intro a ha b hb
          simp only [List.mem_singleton] at hb
          subst hb
          exact h2 a ha
        · intro m hm
          rcases List.mem_append.mp hm with hm1 | hm2
          · have := h2 m hm1
            dsimp only
            omega
          · simp only [List.mem_singleton] at hm2
            subst hm2
            dsimp only
            omega
      · have he : enqueue cap st t = st := by rw [enqueue, if_neg hcap]
        rw [he]
        exact ih st h1 h2
  obtain ⟨hpair, _⟩ := hinv ops emptyQueue (by simp [emptyQueue]) (by simp [emptyQueue])
  have hids : List.Pairwise (fun a b : PendingMessage => a.id ≠ b.id)
      (applyEnqueues cap emptyQueue ops).messages :=
    hpair.imp (fun hlt => by omega)
  refine ⟨drainQueueFuel_perm _ _ _ (le_refl _), ?_⟩
  have hordered := drainQueueFuel_pairwise (applyEnqueues cap emptyQueue ops).messages.length
    (applyEnqueues cap emptyQueue ops).nextId _ (le_refl _) hids
  refine hordered.imp ?_
  intro a b hab
  rw [claimBefore] at hab
  constructor
  · intro ha
    rcases hb : b.message_type with _ | _
    · rw [ha, hb] at hab
      simp [messagePriority] at hab
    · rfl
  · intro he
    rw [he] at hab
    omega

/-! ## SearchManager prompt search

Modelled from the spec: `SearchManager.searchUserPrompts` is code of this
repository that is not under src/ (only its test is).  The spec fixes its
contract: "Prompt search: query VectorIndex first; on empty result or
error, transparently fall back to Store full-text and mark the result
source=sqlite". -/

/-- A user-prompt row of the relational store. -/
structure UserPromptRow where
  id : Nat
  prompt_text : List Char
  deriving DecidableEq, Repr

inductive PromptSearchSource
  | chroma
  | sqlite
  deriving DecidableEq, Repr

structure PromptSearchOutcome where
  rows : List UserPromptRow
  source : PromptSearchSource
  deriving DecidableEq, Repr

/-- Modelled from the spec: `SearchManager.searchUserPrompts` — the vector
backend is queried first; `vectorResult = none` models a backend that is
down (the query threw) and `some ids` the ids it returned; on an error or
an empty id list the relational full-text result is returned marked
`sqlite`, otherwise the hit rows are fetched from the store by id. -/
def searchUserPrompts (vectorResult : Option (List Nat))
    (fetchByIds : List Nat → List UserPromptRow)
    (fullTextRows : List UserPromptRow) : PromptSearchOutcome :=
  match vectorResult with
  | none => ⟨fullTextRows, .sqlite⟩
  | some [] => ⟨fullTextRows, .sqlite⟩
  | some (i :: ids) => ⟨fetchByIds (i :: ids), .chroma⟩

/-! ## Claim C4 -/

/-- Claim C4: for every prompt search whose vector-backend query yields no
hits or fails, the result is exactly the relational full-text rows (marked
`source = sqlite`), so matching prompt rows are still returned rather than
an empty result. -/
theorem promptSearch_falls_back_to_sqlite (vectorResult : Option (List Nat))
    (fetchByIds : List Nat → List UserPromptRow) (fullTextRows : List UserPromptRow)
    (h : vectorResult = none ∨ vectorResult = some []) :
    searchUserPrompts vectorResult fetchByIds fullTextRows =
      ⟨fullTextRows, .sqlite⟩ := by
  rcases h with h | h <;> subst h <;> rfl

/-- Witness for C4 at the repository test's scenario: the vector backend
returns no prompt ids and the relational backend has one matching row. -/
theorem promptSearch_falls_back_to_sqlite_witness :
    ((some [] : Option (List Nat)) = none ∨ (some [] : Option (List Nat)) = some []) ∧
    searchUserPrompts (some []) (fun _ => [])
        [⟨101, ("PLAYWRIGHT_AUDIT_FULL prompt entry").toList⟩] =
      ⟨[⟨101, ("PLAYWRIGHT_AUDIT_FULL prompt entry").toList⟩], .sqlite⟩ :=
  ⟨Or.inr rfl,
    promptSearch_falls_back_to_sqlite (some []) (fun _ => [])
      [⟨101, ("PLAYWRIGHT_AUDIT_FULL prompt entry").toList⟩] (Or.inr rfl)⟩

end CodexMem
